import Mathlib

/-!
Shallow embedding of `color_generator.py` (Martadm/color-generator).

Python floats are modelled as exact rationals (ℚ); the script's float
computations stay well inside the range where binary64 agrees with exact
arithmetic for every fact proved here.  Fallible operations (float division,
which raises `ZeroDivisionError` on a zero divisor; `list.min`/`max` and
indexing, which raise on empty lists) are modelled with `Option`: `none` is a
raised exception.  Strings are `List Char`.
-/

namespace ColorGen

/-- Python float division: raises `ZeroDivisionError` when the divisor is 0. -/
def qdiv? (x y : ℚ) : Option ℚ :=
  if y = 0 then none else some (x / y)

/-- Python `round` (one argument / `round(x, 0)`): round half to even. -/
def pyRound (q : ℚ) : ℤ :=
  let f : ℤ := ⌊q⌋
  let r : ℚ := q - f
  if r < 1/2 then f
  else if 1/2 < r then f + 1
  else if f % 2 = 0 then f else f + 1

/-- Python `int()` applied to a float: truncation toward zero. -/
def pyInt (q : ℚ) : ℤ :=
  if 0 ≤ q then ⌊q⌋ else ⌈q⌉

/-- The character class `[0-9a-f]` of the hex regex in `format_color`
(lowercase only). -/
def isLowerHexDigit (c : Char) : Bool :=
  (48 ≤ c.toNat && c.toNat ≤ 57) || (97 ≤ c.toNat && c.toNat ≤ 102)

/-- The character class `[0-9]` of the decimal regex in `format_color`. -/
def isDigitC (c : Char) : Bool :=
  48 ≤ c.toNat && c.toNat ≤ 57

/-- Value of one hexadecimal digit, as `int('0x' + c, 0)` computes it on a
character matched by `[0-9a-f]`. -/
def hexVal (c : Char) : ℕ :=
  if c.toNat ≤ 57 then c.toNat - 48 else c.toNat - 87

/-- Embeds `color.split(',')` from `format_color`: split on every comma, keeping
empty fields, as Python `str.split` with an explicit separator does. -/
def splitComma : List Char → List (List Char)
  | [] => [[]]
  | c :: rest =>
    if c = ',' then [] :: splitComma rest
    else
      match splitComma rest with
      | [] => [[c]]
      | f :: fs => (c :: f) :: fs

/-- Embeds `int(field)` on a field of decimal digits. -/
def decVal (f : List Char) : ℤ :=
  (f.foldl (fun n c => 10 * n + (c.toNat - 48)) 0 : ℕ)

/-- Embeds `re.search(r"^([0-9a-f]{3}|[0-9a-f]{6}|[0-9a-f]{8})$", color)`: the whole
token is 3, 6 or 8 lowercase hex digits.  (`read_colors` strips trailing
whitespace before calling the parser, so `$` is end-of-string here.) -/
def matchesHexRe (l : List Char) : Bool :=
  (l.length = 3 || l.length = 6 || l.length = 8) && l.all isLowerHexDigit

/-- Embeds `re.search(r"^([0-9]{1,3},){3}[0-9]{1,3}$", color)`: exactly four
comma-separated fields of one to three decimal digits. -/
def matchesDecRe (l : List Char) : Bool :=
  let fields := splitComma l
  fields.length = 4 &&
    fields.all (fun f => (1 ≤ f.length && f.length ≤ 3) && f.all isDigitC)

/-- Embeds `format_color`: convert a color token to `[r, g, b, a]`, or `None` when
the token matches neither regex.  The regexes guarantee the lengths seen in
each branch, so the catch-all match arms are unreachable. -/
def format_color (l : List Char) : Option (List ℤ) :=
  if matchesHexRe l then
    match l with
    | [a, b, c] =>
      some [(17 * hexVal a : ℤ), 17 * hexVal b, 17 * hexVal c, 255]
    | [a, b, c, d, e, f] =>
      some [(16 * hexVal a + hexVal b : ℤ), 16 * hexVal c + hexVal d,
            16 * hexVal e + hexVal f, 255]
    | [a, b, c, d, e, f, g, h] =>
      some [(16 * hexVal a + hexVal b : ℤ), 16 * hexVal c + hexVal d,
            16 * hexVal e + hexVal f, 16 * hexVal g + hexVal h]
    | _ => none
  else if matchesDecRe l then
    match splitComma l with
    | [f1, f2, f3, f4] => some [decVal f1, decVal f2, decVal f3, decVal f4]
    | _ => none
  else none

/-- Embeds `class Color`: `__init__` stores each channel divided by 255. -/
structure Color where
  r : ℚ
  g : ℚ
  b : ℚ
  a : ℚ

/-- Embeds the constructor call `Color(r, g, b, a)`. -/
def Color.ofRGBA (r g b a : ℤ) : Color :=
  ⟨(r : ℚ) / 255, (g : ℚ) / 255, (b : ℚ) / 255, (a : ℚ) / 255⟩

/-- One digit of `"{:02x}"` formatting. -/
def hexChar (n : ℕ) : Char :=
  if n < 10 then Char.ofNat (48 + n) else Char.ofNat (87 + n)

/-- Embeds `"{:02x}".format(n)` for `0 ≤ n < 256` (the range every channel of a
parsed color occupies): two lowercase hex digits. -/
def toHex2 (n : ℤ) : List Char :=
  [hexChar (n.toNat / 16), hexChar (n.toNat % 16)]

/-- Embeds `Color.color_to_hex`: `'#'` followed by `int(channel * 255.)` of each
stored channel formatted as two hex digits, in R,G,B,A order. -/
def Color.color_to_hex (c : Color) : List Char :=
  '#' :: (toHex2 (pyInt (c.r * 255)) ++ toHex2 (pyInt (c.g * 255)) ++
          toHex2 (pyInt (c.b * 255)) ++ toHex2 (pyInt (c.a * 255)))

/-- Embeds `Color.calc_hue`: 0 when achromatic, otherwise the 60°-sector formula on
whichever channel is the maximum, shifted into [0, 360) when negative.  The
only divisor is `delta`, tested nonzero first, so this method is total. -/
def Color.calc_hue (c : Color) : ℚ :=
  let cmax := max c.r (max c.g c.b)
  let cmin := min c.r (min c.g c.b)
  let delta := cmax - cmin
  if delta = 0 then 0
  else
    let h :=
      if cmax = c.r then (c.g - c.b) / delta * 60
      else if cmax = c.g then (c.b - c.r) / delta * 60
      else (c.r - c.g) / delta * 60
    if h < 0 then h + 360 else h

/-- Embeds `Color.calc_saturation` (static): channels are divided by 255 first; when
max ≠ min the HSL formula divides by `1 - |max + min - 1|`, which can be zero
only for out-of-range channel values (then Python raises). -/
def calc_saturation (r g b : ℤ) : Option ℚ :=
  let r' : ℚ := (r : ℚ) / 255
  let g' : ℚ := (g : ℚ) / 255
  let b' : ℚ := (b : ℚ) / 255
  let M := max r' (max g' b')
  let m := min r' (min g' b')
  if M ≠ m then qdiv? (M - m) (1 - |M + m - 1|)
  else some 0

/-- Embeds `Color.calc_lightness`: `(max + min) / 2` over the stored channels. -/
def Color.calc_lightness (c : Color) : ℚ :=
  (max c.r (max c.g c.b) + min c.r (min c.g c.b)) / 2

/-- The accumulation loop of `read_colors`: feed each token through
`format_color`, append the channels of every successfully parsed sample to
the four parallel sequences, skip the rest.  (File/CLI acquisition itself is
I/O and outside the embedding; the loop body is what the claims use.) -/
def build_batch (tokens : List (List Char)) :
    List ℤ × List ℤ × List ℤ × List ℤ :=
  match tokens with
  | [] => ([], [], [], [])
  | t :: ts =>
    let (rs, gs, bs, as_) := build_batch ts
    match format_color t with
    | some [r, g, b, a] => (r :: rs, g :: gs, b :: bs, a :: as_)
    | _ => (rs, gs, bs, as_)

/-- Embeds `mix`: per-channel `sum / len` (float division: `ZeroDivisionError` on an
empty batch) then `int(round(·, 0))`. -/
def mix (rs gs bs as_ : List ℤ) : Option (List ℤ) := do
  let r ← qdiv? ((rs.sum : ℤ) : ℚ) (rs.length : ℚ)
  let g ← qdiv? ((gs.sum : ℤ) : ℚ) (gs.length : ℚ)
  let b ← qdiv? ((bs.sum : ℤ) : ℚ) (bs.length : ℚ)
  let a ← qdiv? ((as_.sum : ℤ) : ℚ) (as_.length : ℚ)
  pure [pyRound r, pyRound g, pyRound b, pyRound a]

/-- Python `min` over a list of ints: raises `ValueError` on an empty list. -/
def pymin? (l : List ℤ) : Option ℤ :=
  match l with
  | [] => none
  | x :: t => some (t.foldl min x)

/-- Python `max` over a list of ints: raises `ValueError` on an empty list. -/
def pymax? (l : List ℤ) : Option ℤ :=
  match l with
  | [] => none
  | x :: t => some (t.foldl max x)

/-- Embeds `lowest`: per-channel minimum. -/
def lowest (rs gs bs as_ : List ℤ) : Option (List ℤ) := do
  let r ← pymin? rs
  let g ← pymin? gs
  let b ← pymin? bs
  let a ← pymin? as_
  pure [r, g, b, a]

/-- Embeds `highest`: per-channel maximum. -/
def highest (rs gs bs as_ : List ℤ) : Option (List ℤ) := do
  let r ← pymax? rs
  let g ← pymax? gs
  let b ← pymax? bs
  let a ← pymax? as_
  pure [r, g, b, a]

/-- The loop of `average_saturation`: for each index, read the three channel
lists (an out-of-range index raises `IndexError`) and compute that sample's
saturation. -/
def satsAux (rs gs bs : List ℤ) : List ℕ → Option (List ℚ)
  | [] => some []
  | i :: is => do
    let r ← rs.get? i
    let g ← gs.get? i
    let b ← bs.get? i
    let s ← calc_saturation r g b
    let rest ← satsAux rs gs bs is
    pure (s :: rest)

/-- Embeds `average_saturation`: saturation of each sample, then
`sum(saturations) / len(saturations)` — `ZeroDivisionError` when no samples. -/
def average_saturation (rs gs bs : List ℤ) : Option ℚ := do
  let sats ← satsAux rs gs bs (List.range rs.length)
  qdiv? sats.sum (sats.length : ℚ)

/-- The cmax branch of `mix_saturate`: both roots of the saturation equation
are computed (each a float division), then the first is kept if it lies in
[0, 1], otherwise the second. -/
def new_cmax (s m : ℚ) : Option ℚ := do
  let first ← qdiv? (2 * s - s * m + m) (s + 1)
  let second ← qdiv? (-(s * m) - m) (s - 1)
  pure (if 0 ≤ first ∧ first ≤ 1 then first else second)

/-- The cmin branch of `mix_saturate`: same selection rule on the two roots
for a new minimum channel. -/
def new_cmin (s M : ℚ) : Option ℚ := do
  let first ← qdiv? (2 * s - s * M - M) (s - 1)
  let second ← qdiv? (M - s * M) (s + 1)
  pure (if 0 ≤ first ∧ first ≤ 1 then first else second)

/-- Embeds `mix_saturate`: take the last sample (`[-1]` indexing raises on an empty
list), locate its max and min RGB channels (`list.index`: first occurrence;
the max/min of the three is always a member, so the not-found case of
`indexOf` is unreachable), compute its saturation, and when the average
saturation differs and the sample is not achromatic replace the channel at
the max (resp. min) index by the selected root rescaled with
`int(round(v * 255))`.  Alpha is appended unchanged. -/
def mix_saturate (rs gs bs as_ : List ℤ) (s : ℚ) : Option (List ℤ) := do
  let lr ← rs.getLast?
  let lg ← gs.getLast?
  let lb ← bs.getLast?
  let la ← as_.getLast?
  let lastColor := [lr, lg, lb]
  let cmaxI : ℤ := max lr (max lg lb)
  let idxMax := lastColor.indexOf cmaxI
  let cminI : ℤ := min lr (min lg lb)
  let idxMin := lastColor.indexOf cminI
  let cmax : ℚ := (cmaxI : ℚ) / 255
  let cmin : ℚ := (cminI : ℚ) / 255
  let lastSat ← calc_saturation lr lg lb
  if lastSat < s ∧ cmax ≠ cmin then do
    let v ← new_cmax s cmin
    pure (lastColor.set idxMax (pyRound (v * 255)) ++ [la])
  else if s < lastSat ∧ cmax ≠ cmin then do
    let v ← new_cmin s cmax
    pure (lastColor.set idxMin (pyRound (v * 255)) ++ [la])
  else
    pure (lastColor ++ [la])

/-- Total closed form of the HSL saturation of one sample (used to state
results about `calc_saturation`, which returns `some` of this value whenever
its divisor is nonzero). -/
def satTotal (r g b : ℤ) : ℚ :=
  let r' : ℚ := (r : ℚ) / 255
  let g' : ℚ := (g : ℚ) / 255
  let b' : ℚ := (b : ℚ) / 255
  let M := max r' (max g' b')
  let m := min r' (min g' b')
  if M ≠ m then (M - m) / (1 - |M + m - 1|) else 0

/-! ### Helper lemmas -/

theorem char_eq_of_toNat_eq {a b : Char} (h : a.toNat = b.toNat) : a = b :=
  Char.eq_of_val_eq (UInt32.ext h)

theorem splitComma_ne_nil (l : List Char) : splitComma l ≠ [] := by
  match l with
  | [] => simp [splitComma]
  | c :: rest =>
    rw [splitComma]
    split
    · simp
    · cases h : splitComma rest <;> simp

theorem mem_splitComma {c : Char} :
    ∀ l : List Char, c ∈ l → c ≠ ',' → ∃ f ∈ splitComma l, c ∈ f := by
  intro l
  induction l with
  | nil => intro h; cases h
  | cons d rest ih =>
    intro hmem hne
    rcases List.mem_cons.mp hmem with hcd | hrest
    · subst hcd
      rw [splitComma, if_neg hne]
      cases h : splitComma rest with
      | nil => exact ⟨[c], by simp, by simp⟩
      | cons f0 fs => exact ⟨c :: f0, by simp, by simp⟩
    · obtain ⟨f, hf, hcf⟩ := ih hrest hne
      rw [splitComma]
      by_cases hd : d = ','
      · rw [if_pos hd]
        exact ⟨f, List.mem_cons_of_mem _ hf, hcf⟩
      · rw [if_neg hd]
        cases h : splitComma rest with
        | nil => rw [h] at hf; cases hf
        | cons f0 fs =>
          rw [h] at hf
          rcases List.mem_cons.mp hf with hf0 | hfs
          · exact ⟨d :: f0, by simp, by simp [hf0 ▸ hcf]⟩
          · exact ⟨f, List.mem_cons_of_mem _ hfs, hcf⟩

theorem hexVal_le_15 {c : Char} (h : isLowerHexDigit c = true) : hexVal c ≤ 15 := by
  simp only [isLowerHexDigit, Bool.or_eq_true, Bool.and_eq_true,
    decide_eq_true_eq] at h
  rw [hexVal]
  rcases h with ⟨h1, h2⟩ | ⟨h1, h2⟩ <;> split <;> omega

theorem length_eq_four {α : Type} {l : List α} (h : l.length = 4) :
    ∃ a b c d, l = [a, b, c, d] := by
  rcases l with _ | ⟨a, _ | ⟨b, _ | ⟨c, _ | ⟨d, _ | ⟨e, t⟩⟩⟩⟩⟩ <;>
    simp only [List.length_nil, List.length_cons] at h <;>
    first
      | omega
      | exact ⟨a, b, c, d, rfl⟩

theorem decVal_bounds {f : List Char} (hlen : f.length ≤ 3)
    (hdig : ∀ c ∈ f, isDigitC c = true) : 0 ≤ decVal f ∧ decVal f ≤ 999 := by
  have digit_le : ∀ c : Char, isDigitC c = true → c.toNat - 48 ≤ 9 := by
    intro c hc
    simp only [isDigitC, Bool.and_eq_true, decide_eq_true_eq] at hc
    omega
  rcases f with _ | ⟨a, _ | ⟨b, _ | ⟨c, _ | _⟩⟩⟩
  · simp [decVal]
  · have := digit_le a (hdig a (by simp))
    simp only [decVal, List.foldl]
    constructor
    · positivity
    · push_cast; omega
  · have ha := digit_le a (hdig a (by simp))
    have hb := digit_le b (hdig b (by simp))
    simp only [decVal, List.foldl]
    constructor
    · positivity
    · push_cast; omega
  · have ha := digit_le a (hdig a (by simp))
    have hb := digit_le b (hdig b (by simp))
    have hc := digit_le c (hdig c (by simp))
    simp only [decVal, List.foldl]
    constructor
    · positivity
    · push_cast; omega
  · exfalso; simp only [List.length_cons] at hlen; omega

/-! ### Claim theorems -/

/-- C9: for every pure-gray color (R=G=B), `calc_saturation` returns 0,
`calc_hue` returns 0, and `calc_lightness` returns R/255.  Proved for every
integer gray value, which covers [0,255] in particular. -/
theorem gray_hsl (r a : ℤ) :
    (Color.ofRGBA r r r a).calc_hue = 0 ∧
    calc_saturation r r r = some 0 ∧
    (Color.ofRGBA r r r a).calc_lightness = (r : ℚ) / 255 := by
  refine ⟨?_, ?_, ?_⟩
  · simp [Color.ofRGBA, Color.calc_hue]
  · simp [calc_saturation]
  · simp only [Color.ofRGBA, Color.calc_lightness, max_self, min_self]
    ring

/-- C4: when the last sample of the batch is achromatic (R=G=B), both
adjusting branches of `mix_saturate` are skipped and the sample is returned
unchanged, for every average saturation; the `some` result shows no division
by zero is executed on this path (every division in the embedding is checked
and returns `none` on a zero divisor). -/
theorem mix_saturate_achromatic_noop (rs gs bs as_ : List ℤ) (s : ℚ) (r a : ℤ)
    (hr : rs.getLast? = some r) (hg : gs.getLast? = some r)
    (hb : bs.getLast? = some r) (ha : as_.getLast? = some a) :
    mix_saturate rs gs bs as_ s = some [r, r, r, a] := by
  simp [mix_saturate, hr, hg, hb, ha, calc_saturation]

theorem mix_saturate_achromatic_noop_witness :
    mix_saturate [10] [10] [10] [99] 7 = some [10, 10, 10, 99] :=
  mix_saturate_achromatic_noop [10] [10] [10] [99] 7 10 99 rfl rfl rfl rfl

/-- C10: hex parsing is lowercase-only — any token containing an uppercase
hex letter A–F matches neither regex, so `format_color` returns `None`;
the same token in lowercase (e.g. `ff0000` vs `FF0000`) parses. -/
theorem uppercase_hex_rejected :
    (∀ l : List Char, (∃ u ∈ l, u ∈ (['A', 'B', 'C', 'D', 'E', 'F'] : List Char)) →
      format_color l = none) ∧
    format_color "FF0000".toList = none ∧
    format_color "ff0000".toList = some [255, 0, 0, 255] := by
  refine ⟨?_, by decide, by decide⟩
  rintro l ⟨u, hul, huU⟩
  have hhexdig : isLowerHexDigit u = false := by
    fin_cases huU <;> decide
  have hdig : isDigitC u = false := by
    fin_cases huU <;> decide
  have hcomma : u ≠ ',' := by
    fin_cases huU <;> decide
  have h1 : matchesHexRe l = false := by
    cases hall : l.all isLowerHexDigit with
    | true =>
      exact absurd (List.all_eq_true.mp hall u hul) (by simp [hhexdig])
    | false => simp [matchesHexRe, hall]
  have h2 : matchesDecRe l = false := by
    obtain ⟨f, hf, hcf⟩ := mem_splitComma l hul hcomma
    cases hall : (splitComma l).all
        (fun f => (1 ≤ f.length && f.length ≤ 3) && f.all isDigitC) with
    | true =>
      have := List.all_eq_true.mp hall f hf
      have := List.all_eq_true.mp (Bool.and_eq_true_iff.mp this).2 u hcf
      exact absurd this (by simp [hdig])
    | false => simp [matchesDecRe, hall]
  simp [format_color, h1, h2]

theorem uppercase_hex_rejected_witness :
    format_color ['F', 'F', '0', '0', '0', '0'] = none :=
  uppercase_hex_rejected.1 _ ⟨'F', by decide, by decide⟩

/-- C1 (amended): `format_color` either returns `None` or exactly four
integers; hex tokens always yield channels in [0,255], but comma-separated
decimal tokens are only digit-count checked, so their channels lie in
[0,999] — values above 255 pass through. -/
theorem format_color_shape (l : List Char) (out : List ℤ)
    (h : format_color l = some out) :
    ∃ r g b a : ℤ, out = [r, g, b, a] ∧
      (0 ≤ r ∧ 0 ≤ g ∧ 0 ≤ b ∧ 0 ≤ a) ∧
      (r ≤ 999 ∧ g ≤ 999 ∧ b ≤ 999 ∧ a ≤ 999) ∧
      (matchesHexRe l = true → r ≤ 255 ∧ g ≤ 255 ∧ b ≤ 255 ∧ a ≤ 255) := by
  rw [format_color.eq_def] at h
  by_cases hhex : matchesHexRe l = true
  · rw [if_pos hhex] at h
    have hall : l.all isLowerHexDigit = true :=
      (Bool.and_eq_true_iff.mp ((by simpa [matchesHexRe] using hhex :
        ((l.length = 3 || l.length = 6 || l.length = 8) &&
          l.all isLowerHexDigit) = true))).2
    have hv : ∀ c ∈ l, hexVal c ≤ 15 := fun c hc =>
      hexVal_le_15 (List.all_eq_true.mp hall c hc)
    split at h
    · rename_i a b c
      rw [Option.some_inj] at h
      have ha := hv a (by simp)
      have hb := hv b (by simp)
      have hc := hv c (by simp)
      exact ⟨_, _, _, _, h.symm,
        by refine ⟨?_, ?_, ?_, ?_⟩ <;> positivity,
        by refine ⟨?_, ?_, ?_, ?_⟩ <;> omega,
        fun _ => by refine ⟨?_, ?_, ?_, ?_⟩ <;> omega⟩
    · rename_i a b c d e f
      rw [Option.some_inj] at h
      have ha := hv a (by simp); have hb := hv b (by simp)
      have hc := hv c (by simp); have hd := hv d (by simp)
      have he := hv e (by simp); have hf := hv f (by simp)
      exact ⟨_, _, _, _, h.symm,
        by refine ⟨?_, ?_, ?_, ?_⟩ <;> positivity,
        by refine ⟨?_, ?_, ?_, ?_⟩ <;> omega,
        fun _ => by refine ⟨?_, ?_, ?_, ?_⟩ <;> omega⟩
    · rename_i a b c d e f g hch
      rw [Option.some_inj] at h
      have ha := hv a (by simp); have hb := hv b (by simp)
      have hc := hv c (by simp); have hd := hv d (by simp)
      have he := hv e (by simp); have hf := hv f (by simp)
      have hg := hv g (by simp); have hh := hv hch (by simp)
      exact ⟨_, _, _, _, h.symm,
        by refine ⟨?_, ?_, ?_, ?_⟩ <;> positivity,
        by refine ⟨?_, ?_, ?_, ?_⟩ <;> omega,
        fun _ => by refine ⟨?_, ?_, ?_, ?_⟩ <;> omega⟩
    · cases h
  · rw [if_neg hhex] at h
    by_cases hdec : matchesDecRe l = true
    · rw [if_pos hdec] at h
      have hdec' : (splitComma l).length = 4 ∧
          ∀ f ∈ splitComma l,
            (1 ≤ f.length ∧ f.length ≤ 3) ∧ ∀ c ∈ f, isDigitC c = true := by
        simpa [matchesDecRe, List.all_eq_true, and_assoc] using hdec
      obtain ⟨f1, f2, f3, f4, heq⟩ := length_eq_four hdec'.1
      rw [heq] at h
      rw [Option.some_inj] at h
      have b1 := decVal_bounds (hdec'.2 f1 (by rw [heq]; simp)).1.2
        (hdec'.2 f1 (by rw [heq]; simp)).2
      have b2 := decVal_bounds (hdec'.2 f2 (by rw [heq]; simp)).1.2
        (hdec'.2 f2 (by rw [heq]; simp)).2
      have b3 := decVal_bounds (hdec'.2 f3 (by rw [heq]; simp)).1.2
        (hdec'.2 f3 (by rw [heq]; simp)).2
      have b4 := decVal_bounds (hdec'.2 f4 (by rw [heq]; simp)).1.2
        (hdec'.2 f4 (by rw [heq]; simp)).2
      exact ⟨_, _, _, _, h.symm,
        ⟨b1.1, b2.1, b3.1, b4.1⟩, ⟨b1.2, b2.2, b3.2, b4.2⟩,
        fun hh => absurd hh hhex⟩
    · rw [if_neg hdec] at h
      cases h

theorem format_color_shape_witness :
    ∃ r g b a : ℤ, ([10, 20, 30, 40] : List ℤ) = [r, g, b, a] ∧
      (0 ≤ r ∧ 0 ≤ g ∧ 0 ≤ b ∧ 0 ≤ a) ∧
      (r ≤ 999 ∧ g ≤ 999 ∧ b ≤ 999 ∧ a ≤ 999) ∧
      (matchesHexRe "10,20,30,40".toList = true →
        r ≤ 255 ∧ g ≤ 255 ∧ b ≤ 255 ∧ a ≤ 255) :=
  format_color_shape "10,20,30,40".toList [10, 20, 30, 40] (by decide)

/-- C1, counterexample to the claim as stated: a comma-separated decimal
token with a field above 255 is parsed, and its red channel exceeds 255. -/
theorem format_color_out_of_range :
    format_color "999,0,0,0".toList = some [999, 0, 0, 0] ∧
      ¬((999 : ℤ) ≤ 255) := by decide

theorem pymin?_append (l : List ℤ) (x : ℤ) (h : l ≠ []) :
    ∃ m mx, pymin? l = some m ∧ pymin? (l ++ [x]) = some mx ∧ mx ≤ m := by
  rcases l with _ | ⟨a, t⟩
  · exact absurd rfl h
  · refine ⟨t.foldl min a, (t ++ [x]).foldl min a, rfl, rfl, ?_⟩
    rw [List.foldl_append]
    exact min_le_left (t.foldl min a) x

theorem pymax?_append (l : List ℤ) (x : ℤ) (h : l ≠ []) :
    ∃ m mx, pymax? l = some m ∧ pymax? (l ++ [x]) = some mx ∧ m ≤ mx := by
  rcases l with _ | ⟨a, t⟩
  · exact absurd rfl h
  · refine ⟨t.foldl max a, (t ++ [x]).foldl max a, rfl, rfl, ?_⟩
    rw [List.foldl_append]
    exact le_max_left (t.foldl max a) x

/-- C7: `lowest` and `highest` are component-wise monotonic under appending
one more sample: each channel of `lowest` never increases and each channel of
`highest` never decreases. -/
theorem lowest_highest_append_mono (rs gs bs as_ : List ℤ) (r g b a : ℤ)
    (hrs : rs ≠ []) (hgs : gs ≠ []) (hbs : bs ≠ []) (has : as_ ≠ []) :
    (∃ lo lo' : List ℤ, lowest rs gs bs as_ = some lo ∧
       lowest (rs ++ [r]) (gs ++ [g]) (bs ++ [b]) (as_ ++ [a]) = some lo' ∧
       List.Forall₂ (fun x y => x ≤ y) lo' lo) ∧
    (∃ hi hi' : List ℤ, highest rs gs bs as_ = some hi ∧
       highest (rs ++ [r]) (gs ++ [g]) (bs ++ [b]) (as_ ++ [a]) = some hi' ∧
       List.Forall₂ (fun x y => x ≤ y) hi hi') := by
  obtain ⟨m1, n1, e1, f1, le1⟩ := pymin?_append rs r hrs
  obtain ⟨m2, n2, e2, f2, le2⟩ := pymin?_append gs g hgs
  obtain ⟨m3, n3, e3, f3, le3⟩ := pymin?_append bs b hbs
  obtain ⟨m4, n4, e4, f4, le4⟩ := pymin?_append as_ a has
  obtain ⟨p1, q1, u1, v1, ge1⟩ := pymax?_append rs r hrs
  obtain ⟨p2, q2, u2, v2, ge2⟩ := pymax?_append gs g hgs
  obtain ⟨p3, q3, u3, v3, ge3⟩ := pymax?_append bs b hbs
  obtain ⟨p4, q4, u4, v4, ge4⟩ := pymax?_append as_ a has
  refine ⟨⟨[m1, m2, m3, m4], [n1, n2, n3, n4], ?_, ?_, ?_⟩,
          ⟨[p1, p2, p3, p4], [q1, q2, q3, q4], ?_, ?_, ?_⟩⟩
  · simp [lowest, e1, e2, e3, e4]
  · simp [lowest, f1, f2, f3, f4]
  · exact .cons le1 (.cons le2 (.cons le3 (.cons le4 .nil)))
  · simp [highest, u1, u2, u3, u4]
  · simp [highest, v1, v2, v3, v4]
  · exact .cons ge1 (.cons ge2 (.cons ge3 (.cons ge4 .nil)))

theorem lowest_highest_append_mono_witness :
    (∃ lo lo' : List ℤ, lowest [5] [6] [7] [8] = some lo ∧
       lowest ([5] ++ [1]) ([6] ++ [9]) ([7] ++ [3]) ([8] ++ [8]) = some lo' ∧
       List.Forall₂ (fun x y => x ≤ y) lo' lo) ∧
    (∃ hi hi' : List ℤ, highest [5] [6] [7] [8] = some hi ∧
       highest ([5] ++ [1]) ([6] ++ [9]) ([7] ++ [3]) ([8] ++ [8]) = some hi' ∧
       List.Forall₂ (fun x y => x ≤ y) hi hi') :=
  lowest_highest_append_mono [5] [6] [7] [8] 1 9 3 8
    (by decide) (by decide) (by decide) (by decide)

theorem abs_pyRound_sub_le (q : ℚ) : |(pyRound q : ℚ) - q| ≤ 1/2 := by
  rw [pyRound]
  have h0 : (0 : ℚ) ≤ q - ⌊q⌋ := sub_nonneg.mpr (Int.floor_le q)
  have h1 : q - ⌊q⌋ < 1 := by
    have := Int.lt_floor_add_one q
    linarith
  split_ifs with hlt hgt hev
  · rw [abs_le]; constructor <;> linarith
  · rw [abs_le]; push_cast; constructor <;> linarith
  · rw [abs_le]; constructor <;> linarith
  · rw [abs_le]; push_cast; constructor <;> linarith

/-- C2: `mix` returns, per channel independently, the arithmetic mean rounded
to the nearest integer (`pyRound`, whose distance to the exact mean is at
most 1/2); on the batch parsed from `ff0000`, `00ff00`, `0000ff` it returns
(85,85,85,255), whose hex encoding is `#555555ff`. -/
theorem mix_is_rounded_mean :
    (∀ q : ℚ, |(pyRound q : ℚ) - q| ≤ 1/2) ∧
    (∀ rs gs bs as_ : List ℤ, rs ≠ [] → gs ≠ [] → bs ≠ [] → as_ ≠ [] →
      mix rs gs bs as_ =
        some [pyRound ((rs.sum : ℚ) / (rs.length : ℚ)),
              pyRound ((gs.sum : ℚ) / (gs.length : ℚ)),
              pyRound ((bs.sum : ℚ) / (bs.length : ℚ)),
              pyRound ((as_.sum : ℚ) / (as_.length : ℚ))]) ∧
    (build_batch ["ff0000".toList, "00ff00".toList, "0000ff".toList] =
        ([255, 0, 0], [0, 255, 0], [0, 0, 255], [255, 255, 255]) ∧
      mix [255, 0, 0] [0, 255, 0] [0, 0, 255] [255, 255, 255] =
        some [85, 85, 85, 255] ∧
      (Color.ofRGBA 85 85 85 255).color_to_hex = "#555555ff".toList) := by
  refine ⟨abs_pyRound_sub_le, ?_, by decide, ?_, ?_⟩
  · intro rs gs bs as_ hrs hgs hbs has
    have hr : ((rs.length : ℚ)) ≠ 0 := by
      simpa using List.length_eq_zero.not.mpr hrs
    have hg : ((gs.length : ℚ)) ≠ 0 := by
      simpa using List.length_eq_zero.not.mpr hgs
    have hb : ((bs.length : ℚ)) ≠ 0 := by
      simpa using List.length_eq_zero.not.mpr hbs
    have ha : ((as_.length : ℚ)) ≠ 0 := by
      simpa using List.length_eq_zero.not.mpr has
    simp [mix, qdiv?, hr, hg, hb, ha]
  · norm_num [mix, qdiv?, pyRound]
  · norm_num [Color.color_to_hex, Color.ofRGBA, pyInt, toHex2, hexChar]
    decide

theorem new_cmax_eq (s m : ℚ) (h1 : s + 1 ≠ 0) (h2 : s - 1 ≠ 0) :
    new_cmax s m =
      some (if 0 ≤ (2 * s - s * m + m) / (s + 1) ∧ (2 * s - s * m + m) / (s + 1) ≤ 1
        then (2 * s - s * m + m) / (s + 1) else (-(s * m) - m) / (s - 1)) := by
  simp [new_cmax, qdiv?, h1, h2]

theorem new_cmin_eq (s M : ℚ) (h1 : s - 1 ≠ 0) (h2 : s + 1 ≠ 0) :
    new_cmin s M =
      some (if 0 ≤ (2 * s - s * M - M) / (s - 1) ∧ (2 * s - s * M - M) / (s - 1) ≤ 1
        then (2 * s - s * M - M) / (s - 1) else (M - s * M) / (s + 1)) := by
  simp [new_cmin, qdiv?, h1, h2]

theorem mean_lt_one (l1 l2 : List ℚ) (lastSat : ℚ)
    (h : ∀ x ∈ l1 ++ lastSat :: l2, 0 ≤ x ∧ x ≤ 1)
    (hlt : lastSat < (l1 ++ lastSat :: l2).sum / (((l1 ++ lastSat :: l2).length : ℕ) : ℚ)) :
    (l1 ++ lastSat :: l2).sum / (((l1 ++ lastSat :: l2).length : ℕ) : ℚ) < 1 := by
  have hsum : (l1 ++ lastSat :: l2).sum = l1.sum + (lastSat + l2.sum) := by
    simp [List.sum_append]
  have hlen : (((l1 ++ lastSat :: l2).length : ℕ) : ℚ) =
      (l1.length : ℚ) + (l2.length : ℚ) + 1 := by
    simp [List.length_append]
    ring
  have hA : l1.sum ≤ (l1.length : ℚ) := by
    have := List.sum_le_card_nsmul l1 1 (fun x hx => (h x (by simp [hx])).2)
    simpa [nsmul_eq_mul] using this
  have hB : l2.sum ≤ (l2.length : ℚ) := by
    have := List.sum_le_card_nsmul l2 1 (fun x hx => (h x (by simp [hx])).2)
    simpa [nsmul_eq_mul] using this
  have hn : (0 : ℚ) < (((l1 ++ lastSat :: l2).length : ℕ) : ℚ) := by
    rw [hlen]
    positivity
  set n : ℚ := (((l1 ++ lastSat :: l2).length : ℕ) : ℚ) with hndef
  set s : ℚ := (l1 ++ lastSat :: l2).sum / n with hsdef
  have hsn : s * n = (l1 ++ lastSat :: l2).sum := div_mul_cancel₀ _ (ne_of_gt hn)
  by_contra hcon
  push_neg at hcon
  nlinarith [mul_nonneg (sub_nonneg.mpr hcon)
    (by nlinarith : (0 : ℚ) ≤ n - 1)]

/-- C3: in the adjusting branches of `mix_saturate`, when the base sample's
channels lie in [0,255] (so its normalized cmin `m` and cmax `M` lie in
[0,1]) and the average saturation `s` is the mean of per-sample saturations
of a batch containing the base sample's saturation, the value selected from
the two algebraic roots is one of the two roots and always lies in [0,1]. -/
theorem mix_saturate_root_in_unit (sats : List ℚ) (s lastSat m M : ℚ)
    (hb : ∀ x ∈ sats, 0 ≤ x ∧ x ≤ 1) (hmem : lastSat ∈ sats)
    (hs : s = sats.sum / ((sats.length : ℕ) : ℚ))
    (hm0 : 0 ≤ m) (hm1 : m ≤ 1) (hM0 : 0 ≤ M) (hM1 : M ≤ 1) :
    (lastSat < s →
      ∃ v, new_cmax s m = some v ∧
        (v = (2 * s - s * m + m) / (s + 1) ∨ v = (-(s * m) - m) / (s - 1)) ∧
        0 ≤ v ∧ v ≤ 1) ∧
    (s < lastSat →
      ∃ v, new_cmin s M = some v ∧
        (v = (2 * s - s * M - M) / (s - 1) ∨ v = (M - s * M) / (s + 1)) ∧
        0 ≤ v ∧ v ≤ 1) := by
  have hne : sats ≠ [] := List.ne_nil_of_mem hmem
  have hlen : (0 : ℚ) < ((sats.length : ℕ) : ℚ) := by
    have := List.length_pos.mpr hne
    exact_mod_cast this
  have hs0 : 0 ≤ s := by
    rw [hs]
    exact div_nonneg (List.sum_nonneg fun x hx => (hb x hx).1) hlen.le
  constructor
  · intro hlt
    have hslt1 : s < 1 := by
      obtain ⟨l1, l2, heq⟩ := List.append_of_mem hmem
      subst heq
      rw [hs]
      exact mean_lt_one l1 l2 lastSat hb (hs ▸ hlt)
    have hd1 : s + 1 ≠ 0 := by linarith
    have hd2 : s - 1 ≠ 0 := by linarith
    have hfirst0 : 0 ≤ (2 * s - s * m + m) / (s + 1) :=
      div_nonneg (by nlinarith) (by linarith)
    have hfirst1 : (2 * s - s * m + m) / (s + 1) ≤ 1 := by
      rw [div_le_one (by linarith)]
      nlinarith
    refine ⟨(2 * s - s * m + m) / (s + 1), ?_, Or.inl rfl, hfirst0, hfirst1⟩
    rw [new_cmax_eq s m hd1 hd2, if_pos ⟨hfirst0, hfirst1⟩]
  · intro hgt
    have hlast1 : lastSat ≤ 1 := (hb _ hmem).2
    have hslt1 : s < 1 := by linarith
    have hd1 : s - 1 ≠ 0 := by linarith
    have hd2 : s + 1 ≠ 0 := by linarith
    rw [new_cmin_eq s M hd1 hd2]
    by_cases hif : 0 ≤ (2 * s - s * M - M) / (s - 1) ∧
        (2 * s - s * M - M) / (s - 1) ≤ 1
    · exact ⟨_, by rw [if_pos hif], Or.inl rfl, hif.1, hif.2⟩
    · refine ⟨(M - s * M) / (s + 1), by rw [if_neg hif], Or.inr rfl, ?_, ?_⟩
      · exact div_nonneg (by nlinarith) (by linarith)
      · rw [div_le_one (by linarith)]
        nlinarith

theorem mix_saturate_root_in_unit_witness :
    ∃ v, new_cmax (1/2) (1/2) = some v ∧
      (v = (2 * (1/2) - (1/2) * (1/2) + 1/2) / (1/2 + 1) ∨
        v = (-((1/2) * (1/2)) - 1/2) / (1/2 - 1)) ∧
      0 ≤ v ∧ v ≤ 1 :=
  (mix_saturate_root_in_unit [0, 1] (1/2) 0 (1/2) (1/2)
    (by
      intro x hx
      simp only [List.mem_cons, List.not_mem_nil, or_false] at hx
      rcases hx with rfl | rfl <;> norm_num)
    (by simp) (by norm_num [List.sum_cons, List.sum_nil])
    (by norm_num) (by norm_num) (by norm_num) (by norm_num)).1 (by norm_num)

theorem calc_saturation_inrange (r g b : ℤ)
    (hr : 0 ≤ r ∧ r ≤ 255) (hg : 0 ≤ g ∧ g ≤ 255) (hb : 0 ≤ b ∧ b ≤ 255) :
    calc_saturation r g b = some (satTotal r g b) := by
  simp only [calc_saturation, satTotal]
  set M : ℚ := max ((r : ℚ) / 255) (max ((g : ℚ) / 255) ((b : ℚ) / 255)) with hM
  set m : ℚ := min ((r : ℚ) / 255) (min ((g : ℚ) / 255) ((b : ℚ) / 255)) with hm
  have h255 : (0 : ℚ) < 255 := by norm_num
  have hub : ∀ x : ℤ, 0 ≤ x → x ≤ 255 → (x : ℚ) / 255 ≤ 1 := fun x h0 h1 => by
    rw [div_le_one h255]
    exact_mod_cast h1
  have hlb : ∀ x : ℤ, 0 ≤ x → x ≤ 255 → 0 ≤ (x : ℚ) / 255 := fun x h0 h1 => by
    positivity
  have hM1 : M ≤ 1 := by
    apply max_le (hub r hr.1 hr.2)
    exact max_le (hub g hg.1 hg.2) (hub b hb.1 hb.2)
  have hm0 : 0 ≤ m := by
    apply le_min (hlb r hr.1 hr.2)
    exact le_min (hlb g hg.1 hg.2) (hlb b hb.1 hb.2)
  have hmM : m ≤ M := le_trans (min_le_left _ _) (le_max_left _ _)
  split_ifs with hne
  · rw [qdiv?, if_neg]
    intro h0
    have habs : |M + m - 1| = 1 := by linarith
    rcases (abs_eq (by norm_num : (0 : ℚ) ≤ 1)).mp habs with h1 | h1
    · exact hne (by linarith)
    · exact hne (by linarith)
  · rfl

theorem satsAux_range (rs gs bs : List ℤ)
    (hlg : rs.length = gs.length) (hlb : rs.length = bs.length)
    (hr : ∀ x ∈ rs, 0 ≤ x ∧ x ≤ 255) (hgv : ∀ x ∈ gs, 0 ≤ x ∧ x ≤ 255)
    (hbv : ∀ x ∈ bs, 0 ≤ x ∧ x ≤ 255) :
    ∀ idxs : List ℕ, (∀ i ∈ idxs, i < rs.length) →
      satsAux rs gs bs idxs =
        some (idxs.map fun i =>
          satTotal (rs.getD i 0) (gs.getD i 0) (bs.getD i 0)) := by
  intro idxs
  induction idxs with
  | nil => intro _; simp [satsAux]
  | cons i is ih =>
    intro hbound
    have hi : i < rs.length := hbound i (by simp)
    have hig : i < gs.length := hlg ▸ hi
    have hib : i < bs.length := hlb ▸ hi
    have e1 : rs.get? i = some (rs.getD i 0) := by
      rw [List.get?_eq_getElem?]
      simp [List.getD_eq_getElem?_getD, List.getElem?_eq_getElem hi]
    have e2 : gs.get? i = some (gs.getD i 0) := by
      rw [List.get?_eq_getElem?]
      simp [List.getD_eq_getElem?_getD, List.getElem?_eq_getElem hig]
    have e3 : bs.get? i = some (bs.getD i 0) := by
      rw [List.get?_eq_getElem?]
      simp [List.getD_eq_getElem?_getD, List.getElem?_eq_getElem hib]
    have hrv : 0 ≤ rs.getD i 0 ∧ rs.getD i 0 ≤ 255 := by
      rw [List.getD_eq_getElem?_getD, List.getElem?_eq_getElem hi]
      exact hr _ (List.getElem_mem hi)
    have hgv' : 0 ≤ gs.getD i 0 ∧ gs.getD i 0 ≤ 255 := by
      rw [List.getD_eq_getElem?_getD, List.getElem?_eq_getElem hig]
      exact hgv _ (List.getElem_mem hig)
    have hbv' : 0 ≤ bs.getD i 0 ∧ bs.getD i 0 ≤ 255 := by
      rw [List.getD_eq_getElem?_getD, List.getElem?_eq_getElem hib]
      exact hbv _ (List.getElem_mem hib)
    have hsat := calc_saturation_inrange _ _ _ hrv hgv' hbv'
    have hrest := ih (fun j hj => hbound j (by simp [hj]))
    simp only [satsAux, List.map_cons]
    rw [e1, e2, e3]
    simp only [List.getD_eq_getElem?_getD] at hsat hrest
    simp [hsat, hrest]

/-- C5: with channel values in [0,255], `average_saturation` returns the
arithmetic mean of the per-sample HSL saturations whenever the batch is
non-empty, and the division-by-zero error occurs exactly on the empty
batch. -/
theorem average_saturation_spec (rs gs bs : List ℤ)
    (hlg : rs.length = gs.length) (hlb : rs.length = bs.length)
    (hr : ∀ x ∈ rs, 0 ≤ x ∧ x ≤ 255) (hgv : ∀ x ∈ gs, 0 ≤ x ∧ x ≤ 255)
    (hbv : ∀ x ∈ bs, 0 ≤ x ∧ x ≤ 255) :
    (rs = [] → average_saturation rs gs bs = none) ∧
    (rs ≠ [] → average_saturation rs gs bs =
      some (((List.range rs.length).map fun i =>
          satTotal (rs.getD i 0) (gs.getD i 0) (bs.getD i 0)).sum /
        (rs.length : ℚ))) := by
  constructor
  · rintro rfl
    simp [average_saturation, satsAux, qdiv?]
  · intro hne
    have hmap := satsAux_range rs gs bs hlg hlb hr hgv hbv
      (List.range rs.length) (fun i hi => List.mem_range.mp hi)
    have hlen0 : ((rs.length : ℕ) : ℚ) ≠ 0 := by
      have := List.length_pos.mpr hne
      positivity
    simp [average_saturation, hmap, qdiv?, hlen0, hne]

theorem average_saturation_spec_witness :
    average_saturation [] [] [] = none ∧
      average_saturation [0] [0] [0] = some 0 := by
  constructor
  · exact (average_saturation_spec [] [] [] rfl rfl (by simp) (by simp)
      (by simp)).1 rfl
  · have h := (average_saturation_spec [0] [0] [0] rfl rfl
      (by intro x hx; simp only [List.mem_singleton] at hx; simp [hx])
      (by intro x hx; simp only [List.mem_singleton] at hx; simp [hx])
      (by intro x hx; simp only [List.mem_singleton] at hx; simp [hx])).2
      (by simp)
    rw [h]
    norm_num [satTotal, List.range_succ]

theorem length_eq_eight {α : Type} {l : List α} (h : l.length = 8) :
    ∃ a b c d e f g h8, l = [a, b, c, d, e, f, g, h8] := by
  rcases l with _ | ⟨a, _ | ⟨b, _ | ⟨c, _ | ⟨d, _ | ⟨e, _ | ⟨f, _ | ⟨g,
    _ | ⟨h8, _ | ⟨i, t⟩⟩⟩⟩⟩⟩⟩⟩⟩ <;>
    simp only [List.length_nil, List.length_cons] at h <;>
    first
      | omega
      | exact ⟨a, b, c, d, e, f, g, h8, rfl⟩

theorem hexChar_hexVal {c : Char} (h : isLowerHexDigit c = true) :
    hexChar (hexVal c) = c := by
  simp only [isLowerHexDigit, Bool.or_eq_true, Bool.and_eq_true,
    decide_eq_true_eq] at h
  apply char_eq_of_toNat_eq
  rcases h with ⟨h1, h2⟩ | ⟨h1, h2⟩
  · have hv : hexVal c = c.toNat - 48 := by rw [hexVal, if_pos h2]
    rw [hv, hexChar, if_pos (by omega)]
    generalize hn : c.toNat = n at h1 h2 ⊢
    interval_cases n <;> decide
  · have hv : hexVal c = c.toNat - 87 := by rw [hexVal, if_neg (by omega)]
    rw [hv, hexChar, if_neg (by omega)]
    generalize hn : c.toNat = n at h1 h2 ⊢
    interval_cases n <;> decide

theorem pyInt_div_mul (x : ℤ) : pyInt ((x : ℚ) / 255 * 255) = x := by
  have he : ((x : ℚ) / 255 * 255) = (x : ℚ) := by field_simp
  rw [he, pyInt]
  split_ifs with h
  · exact Int.floor_intCast x
  · exact Int.ceil_intCast x

theorem toHex2_of_digits (hi lo : ℕ) (hh : hi ≤ 15) (hl : lo ≤ 15) :
    toHex2 (16 * (hi : ℤ) + (lo : ℤ)) = [hexChar hi, hexChar lo] := by
  rw [toHex2]
  have h1 : (16 * (hi : ℤ) + (lo : ℤ)).toNat = 16 * hi + lo := by omega
  have hdiv : (16 * hi + lo) / 16 = hi := by omega
  have hmod : (16 * hi + lo) % 16 = lo := by omega
  rw [h1, hdiv, hmod]

/-- C6: parsing an 8-lowercase-hex-digit token with `format_color` and
encoding the four channels through `Color` and `color_to_hex` reproduces the
same eight hex digits after the leading `#`. -/
theorem hex8_roundtrip (l : List Char) (hlen : l.length = 8)
    (hhex : l.all isLowerHexDigit = true) :
    ∃ r g b a : ℤ, format_color l = some [r, g, b, a] ∧
      (Color.ofRGBA r g b a).color_to_hex = '#' :: l := by
  obtain ⟨c0, c1, c2, c3, c4, c5, c6, c7, rfl⟩ := length_eq_eight hlen
  have hc : ∀ c ∈ [c0, c1, c2, c3, c4, c5, c6, c7], isLowerHexDigit c = true :=
    List.all_eq_true.mp hhex
  have h0 := hc c0 (by simp); have h1 := hc c1 (by simp)
  have h2 := hc c2 (by simp); have h3 := hc c3 (by simp)
  have h4 := hc c4 (by simp); have h5 := hc c5 (by simp)
  have h6 := hc c6 (by simp); have h7 := hc c7 (by simp)
  have hm : matchesHexRe [c0, c1, c2, c3, c4, c5, c6, c7] = true := by
    simp [matchesHexRe, hhex]
  refine ⟨16 * (hexVal c0 : ℤ) + (hexVal c1 : ℤ),
    16 * (hexVal c2 : ℤ) + (hexVal c3 : ℤ),
    16 * (hexVal c4 : ℤ) + (hexVal c5 : ℤ),
    16 * (hexVal c6 : ℤ) + (hexVal c7 : ℤ), ?_, ?_⟩
  · rw [format_color.eq_def, if_pos hm]
  · simp only [Color.ofRGBA, Color.color_to_hex]
    rw [pyInt_div_mul, pyInt_div_mul, pyInt_div_mul, pyInt_div_mul,
      toHex2_of_digits _ _ (hexVal_le_15 h0) (hexVal_le_15 h1),
      toHex2_of_digits _ _ (hexVal_le_15 h2) (hexVal_le_15 h3),
      toHex2_of_digits _ _ (hexVal_le_15 h4) (hexVal_le_15 h5),
      toHex2_of_digits _ _ (hexVal_le_15 h6) (hexVal_le_15 h7),
      hexChar_hexVal h0, hexChar_hexVal h1, hexChar_hexVal h2,
      hexChar_hexVal h3, hexChar_hexVal h4, hexChar_hexVal h5,
      hexChar_hexVal h6, hexChar_hexVal h7]
    rfl

theorem hex8_roundtrip_witness :
    ∃ r g b a : ℤ, format_color "12abcdef".toList = some [r, g, b, a] ∧
      (Color.ofRGBA r g b a).color_to_hex = '#' :: "12abcdef".toList :=
  hex8_roundtrip "12abcdef".toList (by decide) (by decide)

theorem max3_mem (lr lg lb : ℤ) : max lr (max lg lb) ∈ [lr, lg, lb] := by
  rcases max_choice lr (max lg lb) with h | h
  · rw [h]; simp
  · rcases max_choice lg lb with h2 | h2 <;> rw [h, h2] <;> simp

theorem min3_mem (lr lg lb : ℤ) : min lr (min lg lb) ∈ [lr, lg, lb] := by
  rcases min_choice lr (min lg lb) with h | h
  · rw [h]; simp
  · rcases min_choice lg lb with h2 | h2 <;> rw [h, h2] <;> simp

theorem set3_frame (lr lg lb la x : ℤ) (k : ℕ) (hk : k < 3) :
    ∃ i < 3, (∀ j < 3, j ≠ i →
        ([lr, lg, lb].set k x ++ [la]).get? j = [lr, lg, lb].get? j) ∧
      ([lr, lg, lb].set k x ++ [la]).get? 3 = some la := by
  refine ⟨k, hk, ?_, ?_⟩
  · intro j hj hne
    interval_cases k <;> interval_cases j <;> simp_all
  · interval_cases k <;> rfl

/-- C8: for every non-empty batch, `mix_saturate` changes at most one of the
last sample's R/G/B channels (the one at the max or min index); the other two
RGB channels and the alpha channel of the result equal the last sample's. -/
theorem mix_saturate_frame (rs gs bs as_ : List ℤ) (s : ℚ) (out : List ℤ)
    (lr lg lb la : ℤ)
    (hr : rs.getLast? = some lr) (hg : gs.getLast? = some lg)
    (hb : bs.getLast? = some lb) (ha : as_.getLast? = some la)
    (hout : mix_saturate rs gs bs as_ s = some out) :
    ∃ i < 3, (∀ j < 3, j ≠ i → out.get? j = [lr, lg, lb].get? j) ∧
      out.get? 3 = some la := by
  have hbind : ∀ {α β : Type} (a : α) (f : α → Option β), (some a >>= f) = f a :=
    fun a f => rfl
  have hpure : ∀ {α : Type} (a : α), (pure a : Option α) = some a :=
    fun a => rfl
  rw [mix_saturate, hr, hg, hb, ha] at hout
  simp only [hbind, hpure] at hout
  cases hsat : calc_saturation lr lg lb with
  | none => rw [hsat] at hout; cases hout
  | some lastSat =>
    rw [hsat] at hout
    simp only [hbind, hpure] at hout
    split_ifs at hout with h1 h2
    · cases hv : new_cmax s ((min lr (min lg lb) : ℤ) / 255) with
      | none => rw [hv] at hout; cases hout
      | some v =>
        rw [hv] at hout
        simp only [hbind, hpure, Option.some_inj] at hout
        subst hout
        exact set3_frame lr lg lb la _ _
          (by
            have := List.indexOf_lt_length.mpr (max3_mem lr lg lb)
            simpa using this)
    · cases hv : new_cmin s ((max lr (max lg lb) : ℤ) / 255) with
      | none => rw [hv] at hout; cases hout
      | some v =>
        rw [hv] at hout
        simp only [hbind, hpure, Option.some_inj] at hout
        subst hout
        exact set3_frame lr lg lb la _ _
          (by
            have := List.indexOf_lt_length.mpr (min3_mem lr lg lb)
            simpa using this)
    · simp only [hpure, Option.some_inj] at hout
      subst hout
      exact set3_frame lr lg lb la lr 0 (by omega)

set_option maxHeartbeats 1000000 in
set_option maxRecDepth 8000 in
theorem mix_saturate_frame_witness :
    ∃ i < 3, (∀ j < 3, j ≠ i →
        ([100, 50, 33, 7] : List ℤ).get? j = ([100, 50, 20] : List ℤ).get? j) ∧
      ([100, 50, 33, 7] : List ℤ).get? 3 = some 7 :=
  mix_saturate_frame [100] [50] [20] [7] (1/2) [100, 50, 33, 7] 100 50 20 7
    rfl rfl rfl rfl
    (by
      have h1 : mix_saturate [100] [50] [20] [7] (1/2) =
          some [100, 50, pyRound ((100 : ℚ) / 3), 7] := by
        norm_num [mix_saturate, calc_saturation, qdiv?, new_cmin, abs_of_nonneg]
      rw [h1]
      norm_num [pyRound])

theorem mix_is_rounded_mean_witness :
    mix [2, 4] [6, 6] [1, 2] [255, 255] = some [3, 6, 2, 255] := by
  have h := mix_is_rounded_mean.2.1 [2, 4] [6, 6] [1, 2] [255, 255]
    (by decide) (by decide) (by decide) (by decide)
  rw [h]
  norm_num [pyRound]

end ColorGen

